import Mathlib

/-
Shallow embedding of the core logic of the `mcpagentchatserverGO`
repository: the line-based chunker, the file classifier, the
repository-identity derivation, the search-result ranking and
summary filtering, the Pinecone store request construction, and the
directory walker of the repository indexer.

Go strings are byte sequences; they are modelled here as `List Char`
(`Str`), with each Go byte represented by the character of that code
point.  The byte length of a Go string corresponds to `List.length`.
Vendor calls (OpenAI embeddings, Pinecone index/upsert) are modelled as
explicit function parameters returning `Except`; `float32` embedding
vectors are modelled as `List Int` since no core logic ever inspects
the numeric values, it only passes them through.
-/

namespace VecSearch

abbrev Str := List Char

def str (s : String) : Str := s.data

/-! ## Go `strings` / `path/filepath` helpers used by the sources -/

/-- `strings.HasPrefix s pre` from the Go standard library. -/
def goStarts (s pre : Str) : Bool := pre.isPrefixOf s

/-- `strings.HasSuffix s suf` from the Go standard library. -/
def goEnds (s suf : Str) : Bool := suf.isSuffixOf s

/-- `strings.Contains s sub` from the Go standard library: `sub` occurs
as a contiguous substring of `s`. -/
def goContains (s sub : Str) : Bool := s.tails.any (fun t => sub.isPrefixOf t)

/-- `strings.Split s (String.mk [sep])` for a one-character separator,
with Go's semantics: splitting the empty string yields `[[]]`, and the
result always has one more element than the number of separators. -/
def splitOnChar (sep : Char) : Str → List Str
  | [] => [[]]
  | c :: cs =>
    if c = sep then [] :: splitOnChar sep cs
    else
      match splitOnChar sep cs with
      | [] => [[c]]
      | l :: ls => (c :: l) :: ls

/-- `strings.ToLower`, restricted to the ASCII case mapping (all inputs
fed to it by this repository are ASCII file extensions). -/
def goToLower (s : Str) : Str := s.map Char.toLower

/-! ## Chunker

`splitIntoChunks` appears three times in the repository with identical
logic: `github-mcpserver/tools/tools/repo_indexer.go`,
`tools/tools/repo_indexer.go` and (as `SplitIntoChunks`)
`tools/internal/storage/openai.go` / `pkg/utils`.  The content is first
split on newlines, then lines are accumulated into chunks. -/

/-- The lines of the content: `strings.Split(content, "\n")`. -/
def splitLines (s : Str) : List Str := splitOnChar '\n' s

/-- The accumulation loop of `splitIntoChunks`, with the loop state
`(chunks, currentChunk, currentSize)` passed explicitly. -/
def chunkLoop (chunkSize : Nat) : List Str → List Str → Str → Nat → List Str
  | [], chunks, currentChunk, currentSize =>
    if 0 < currentSize then chunks ++ [currentChunk] else chunks
  | line :: rest, chunks, currentChunk, currentSize =>
    if currentSize + line.length > chunkSize ∧ 0 < currentSize then
      chunkLoop chunkSize rest (chunks ++ [currentChunk]) line line.length
    else
      chunkLoop chunkSize rest chunks
        ((if 0 < currentSize then currentChunk ++ ['\n'] else currentChunk) ++ line)
        (currentSize + line.length + 1)

/-- `splitIntoChunks(content, chunkSize)` from `repo_indexer.go`. -/
def splitIntoChunks (content : Str) (chunkSize : Nat) : List Str :=
  chunkLoop chunkSize (splitLines content) [] [] 0

/-! ## Basic facts about line splitting and joining -/

/-- Joining a list of lines with `"\n"`, i.e. `strings.Join(lines, "\n")`. -/
def joinLines : List Str → Str
  | [] => []
  | [l] => l
  | l :: ls => l ++ '\n' :: joinLines ls

/-- The glue added when a list of further lines is appended after a first
line: each of them is preceded by one newline. -/
def glue (ls : List Str) : Str := ls.flatMap (fun l => '\n' :: l)

theorem splitOnChar_ne_nil (sep : Char) (s : Str) : splitOnChar sep s ≠ [] := by
  induction s with
  | nil => simp [splitOnChar]
  | cons c cs ih =>
    by_cases h : c = sep
    · simp [splitOnChar, h]
    · simp only [splitOnChar, if_neg h]
      cases hs : splitOnChar sep cs with
      | nil => exact absurd hs ih
      | cons l ls => simp

theorem joinLines_cons (x : Str) (xs : List Str) :
    joinLines (x :: xs) = x ++ glue xs := by
  induction xs generalizing x with
  | nil => simp [joinLines, glue]
  | cons y ys ih => simp [joinLines, glue, ih y]

theorem glue_append (a b : List Str) : glue (a ++ b) = glue a ++ glue b := by
  simp [glue]

theorem joinLines_splitLines (s : Str) : joinLines (splitLines s) = s := by
  induction s with
  | nil => simp [splitLines, splitOnChar, joinLines]
  | cons c cs ih =>
    by_cases h : c = '\n'
    · subst h
      simp only [splitLines, splitOnChar, if_pos rfl]
      cases hs : splitOnChar '\n' cs with
      | nil => exact absurd hs (splitOnChar_ne_nil '\n' cs)
      | cons l ls =>
        have : joinLines (l :: ls) = cs := by
          simpa [splitLines, hs] using ih
        simp [joinLines_cons, glue] at this ⊢
        simp [this]
    · simp only [splitLines, splitOnChar, if_neg h]
      cases hs : splitOnChar '\n' cs with
      | nil => exact absurd hs (splitOnChar_ne_nil '\n' cs)
      | cons l ls =>
        have hih : joinLines (l :: ls) = cs := by
          simpa [splitLines, hs] using ih
        simp [joinLines_cons] at hih ⊢
        simp [hih]

theorem joinLines_append_single (xs : List Str) (y : Str) (h : xs ≠ []) :
    joinLines (xs ++ [y]) = joinLines xs ++ '\n' :: y := by
  cases xs with
  | nil => exact absurd rfl h
  | cons x rest =>
    rw [List.cons_append, joinLines_cons, joinLines_cons, glue_append]
    simp [glue]

theorem joinLines_snoc_append (chunks : List Str) (cur m : Str) :
    joinLines (chunks ++ [cur ++ m]) = joinLines (chunks ++ [cur]) ++ m := by
  cases chunks with
  | nil => simp [joinLines]
  | cons x rest =>
    rw [List.cons_append, List.cons_append, joinLines_cons, joinLines_cons,
      glue_append, glue_append]
    simp [glue]

/-- Invariant of the accumulation loop: as long as `currentSize` stays
positive (which holds whenever no empty line triggers a chunk closure),
each processed line contributes exactly one `'\n'` plus its characters
to the final joined output. -/
theorem chunkLoop_join (N : Nat) :
    ∀ (ls : List Str) (chunks : List Str) (cur : Str) (size : Nat),
      0 < size → (∀ l ∈ ls, l ≠ []) →
      joinLines (chunkLoop N ls chunks cur size) =
        joinLines (chunks ++ [cur]) ++ glue ls := by
  intro ls
  induction ls with
  | nil =>
    intro chunks cur size hsize _
    simp [chunkLoop, if_pos hsize, glue]
  | cons l rest ih =>
    intro chunks cur size hsize hne
    by_cases hc : size + l.length > N ∧ 0 < size
    · have hl : l ≠ [] := hne l (List.mem_cons_self l rest)
      have hlpos : 0 < l.length := List.length_pos.mpr hl
      rw [chunkLoop, if_pos hc]
      rw [ih (chunks ++ [cur]) l l.length hlpos
        (fun x hx => hne x (List.mem_cons_of_mem l hx))]
      rw [joinLines_append_single (chunks ++ [cur]) l (by simp)]
      simp [glue]
    · rw [chunkLoop, if_neg hc, if_pos hsize]
      rw [ih chunks ((cur ++ ['\n']) ++ l) (size + l.length + 1) (by omega)
        (fun x hx => hne x (List.mem_cons_of_mem l hx))]
      rw [List.append_assoc cur ['\n'] l, joinLines_snoc_append chunks cur (['\n'] ++ l)]
      simp [glue]

theorem splitIntoChunks_step (content : Str) (N : Nat) :
    ∀ l1 rest, splitLines content = l1 :: rest →
      splitIntoChunks content N = chunkLoop N rest [] l1 (l1.length + 1) := by
  intro l1 rest h
  rw [splitIntoChunks, h, chunkLoop]
  simp

/-- C1 counterexample input: the text `"a\n"` with chunk size 1.  Its
final (empty) line triggers a chunk closure with an empty accumulator,
which is then dropped, losing the trailing newline. -/
theorem chunker_roundtrip_cex :
    joinLines (splitIntoChunks (str "a\n") 1) = str "a" ∧ str "a" ≠ str "a\n" := by
  constructor
  · decide
  · decide

/-- C1, amended: the chunker round-trips (joining the chunks with `"\n"`
reproduces the content byte-for-byte) for every chunk size, provided no
line of the content other than the first one is empty (in particular the
content must not end in a newline and must not contain `"\n\n"`). -/
theorem chunker_roundtrip_amended (content : Str) (N : Nat)
    (h : ∀ l ∈ (splitLines content).drop 1, l ≠ []) :
    joinLines (splitIntoChunks content N) = content := by
  cases hs : splitLines content with
  | nil => exact absurd hs (splitOnChar_ne_nil '\n' content)
  | cons l1 rest =>
    rw [splitIntoChunks_step content N l1 rest hs]
    have hrest : ∀ l ∈ rest, l ≠ [] := by
      intro l hl
      exact h l (by simp [hs, hl])
    rw [chunkLoop_join N rest [] l1 (l1.length + 1) (by omega) hrest]
    have : joinLines ([] ++ [l1]) = l1 := by simp [joinLines]
    rw [this, ← joinLines_cons, ← hs, joinLines_splitLines]

theorem chunker_roundtrip_amended_witness :
    (∀ l ∈ (splitLines (str "ab\ncd")).drop 1, l ≠ []) ∧
      joinLines (splitIntoChunks (str "ab\ncd") 3) = str "ab\ncd" :=
  ⟨by decide, chunker_roundtrip_amended (str "ab\ncd") 3 (by decide)⟩

theorem not_mem_of_mem_splitOnChar (sep : Char) (s : Str) :
    ∀ l ∈ splitOnChar sep s, sep ∉ l := by
  induction s with
  | nil =>
    intro l hl
    simp [splitOnChar] at hl
    simp [hl]
  | cons c cs ih =>
    intro l hl
    by_cases h : c = sep
    · rw [splitOnChar, if_pos h] at hl
      rcases List.mem_cons.mp hl with h1 | h1
      · simp [h1]
      · exact ih l h1
    · rw [splitOnChar, if_neg h] at hl
      cases hs : splitOnChar sep cs with
      | nil => exact absurd hs (splitOnChar_ne_nil sep cs)
      | cons m ms =>
        rw [hs] at hl
        rcases List.mem_cons.mp hl with h1 | h1
        · subst h1
          intro hmem
          rcases List.mem_cons.mp hmem with h2 | h2
          · exact h h2.symm
          · exact ih m (by simp [hs]) h2
        · exact ih l (by simp [hs, h1])

/-- Invariant of the accumulation loop used for the chunk-size bound:
every emitted chunk either has at most `N + 1` characters or is one of
the source lines `L` verbatim.  `cur.length ≤ size` and
`size = 0 → cur = []` are the auxiliary facts that make the invariant
inductive. -/
theorem chunkLoop_bound (N : Nat) (L : List Str) :
    ∀ (ls : List Str) (chunks : List Str) (cur : Str) (size : Nat),
      (∀ l ∈ ls, l ∈ L) →
      (∀ c ∈ chunks, c.length ≤ N + 1 ∨ c ∈ L) →
      (size = 0 → cur = []) →
      cur.length ≤ size →
      (cur.length ≤ N + 1 ∨ cur ∈ L) →
      ∀ c ∈ chunkLoop N ls chunks cur size, c.length ≤ N + 1 ∨ c ∈ L := by
  intro ls
  induction ls with
  | nil =>
    intro chunks cur size _ hchunks _ _ hcur c hc
    rw [chunkLoop] at hc
    by_cases hs : 0 < size
    · rw [if_pos hs] at hc
      rcases List.mem_append.mp hc with h | h
      · exact hchunks c h
      · rw [List.mem_singleton.mp h]; exact hcur
    · rw [if_neg hs] at hc
      exact hchunks c hc
  | cons l rest ih =>
    intro chunks cur size hls hchunks hzero hlen hcur c hc
    by_cases hb : size + l.length > N ∧ 0 < size
    · rw [chunkLoop, if_pos hb] at hc
      refine ih (chunks ++ [cur]) l l.length
        (fun x hx => hls x (List.mem_cons_of_mem l hx)) ?_ ?_ le_rfl
        (Or.inr (hls l (List.mem_cons_self l rest))) c hc
      · intro x hx
        rcases List.mem_append.mp hx with h | h
        · exact hchunks x h
        · rw [List.mem_singleton.mp h]; exact hcur
      · intro h0
        exact List.length_eq_zero.mp h0
    · rw [chunkLoop, if_neg hb] at hc
      by_cases hs : 0 < size
      · have hfit : size + l.length ≤ N := by
          rcases not_and_or.mp hb with h | h
          · omega
          · omega
        rw [if_pos hs] at hc
        refine ih chunks ((cur ++ ['\n']) ++ l) (size + l.length + 1)
          (fun x hx => hls x (List.mem_cons_of_mem l hx)) hchunks
          (by omega) ?_ ?_ c hc
        · simp only [List.length_append, List.length_singleton]
          omega
        · left
          simp only [List.length_append, List.length_singleton]
          omega
      · have h0 : size = 0 := by omega
        have hcur0 : cur = [] := hzero h0
        rw [if_neg hs] at hc
        subst hcur0
        refine ih chunks ([] ++ l) (size + l.length + 1)
          (fun x hx => hls x (List.mem_cons_of_mem l hx)) hchunks
          (by omega) (by simp; omega)
          (Or.inr (by simpa using hls l (List.mem_cons_self l rest))) c hc

/-- C4 counterexample: for the text `"xx\nab\nc"` and `N = 3`, the
returned chunk `"ab\nc"` has 4 > 3 characters yet spans two source
lines (it contains a newline), because a chunk opened by a closure
undercounts its size by one. -/
theorem chunker_boundary_cex :
    str "ab\nc" ∈ splitIntoChunks (str "xx\nab\nc") 3 ∧
      3 < (str "ab\nc").length ∧ '\n' ∈ str "ab\nc" := by
  refine ⟨by decide, by decide, by decide⟩

/-- C4, amended: for every text and every chunk size `N ≥ 1`, every
returned chunk either has character count at most `N + 1` (not `N`: a
chunk opened right after a closure can reach `N + 1` characters and
still span several lines), or is a single source line of the text,
reproduced verbatim, never split mid-line and never combined with other
lines. -/
theorem chunker_boundary_amended (content : Str) (N : Nat) (_hN : 1 ≤ N) :
    ∀ c ∈ splitIntoChunks content N,
      c.length ≤ N + 1 ∨ (c ∈ splitLines content ∧ '\n' ∉ c) := by
  intro c hc
  have h := chunkLoop_bound N (splitLines content) (splitLines content)
    [] [] 0 (fun l hl => hl) (by simp) (fun _ => rfl) (by simp)
    (Or.inl (by simp)) c hc
  rcases h with h | h
  · exact Or.inl h
  · exact Or.inr ⟨h, not_mem_of_mem_splitOnChar '\n' content c h⟩

theorem chunker_boundary_amended_witness :
    (1 ≤ 3 ∧ str "ab\nc" ∈ splitIntoChunks (str "xx\nab\nc") 3) ∧
      ((str "ab\nc").length ≤ 3 + 1 ∨
        (str "ab\nc" ∈ splitLines (str "xx\nab\nc") ∧ '\n' ∉ str "ab\nc")) :=
  ⟨⟨by decide, by decide⟩,
    chunker_boundary_amended (str "xx\nab\nc") 3 (by decide) (str "ab\nc") (by decide)⟩

/-- C5 counterexample: for the empty content and the default chunk size
1000, `splitIntoChunks` returns one chunk (the empty string), not zero
chunks: `strings.Split("", "\n")` yields one empty line, whose
accumulation sets `currentSize` to 1, so the final flush emits it. -/
theorem chunker_empty_cex :
    splitIntoChunks [] 1000 = [([] : Str)] ∧ ([([] : Str)] : List Str) ≠ [] := by
  refine ⟨by decide, by decide⟩

/-- C5, amended: for every chunk size (including the default 1000),
`splitIntoChunks` applied to the empty string returns exactly one chunk,
which is the empty string. -/
theorem chunker_empty_amended (N : Nat) : splitIntoChunks [] N = [([] : Str)] := by
  rw [splitIntoChunks]
  have : splitLines [] = [[]] := rfl
  rw [this, chunkLoop]
  have hcond : ¬(0 + List.length ([] : Str) > N ∧ 0 < 0) := by simp
  rw [if_neg hcond, chunkLoop]
  simp

/-! ## File classifier

`isBinaryFile` and `containsBinaryData` from `repo_indexer.go` (the same
functions appear in `pkg/utils/...`), plus the size / content-sniff
checks applied inline by `processDirectory`. -/

/-- The scan of `filepath.Ext`: walk the path from its end towards the
last path separator; the extension is the suffix starting at the final
dot, or empty if there is none.  `acc` holds the characters already
walked past, in original order. -/
def extRevLoop (acc : Str) : Str → Str
  | [] => []
  | c :: cs =>
    if c = '/' then []
    else if c = '.' then '.' :: acc
    else extRevLoop (c :: acc) cs

/-- `filepath.Ext(path)` from the Go standard library. -/
def goExt (path : Str) : Str := extRevLoop [] path.reverse

/-- The fixed extension denylist of `isBinaryFile`. -/
def binaryExtensions : List Str :=
  [str ".jpg", str ".jpeg", str ".png", str ".gif", str ".bmp", str ".ico", str ".svg",
   str ".zip", str ".tar", str ".gz", str ".rar", str ".7z",
   str ".pdf", str ".doc", str ".docx", str ".xls", str ".xlsx", str ".ppt", str ".pptx",
   str ".mp3", str ".mp4", str ".wav", str ".avi", str ".mov",
   str ".so", str ".dll", str ".exe", str ".bin"]

/-- `isBinaryFile(filename)` from `repo_indexer.go`: denylisted
extension (case-insensitive) or a version-control internal file name. -/
def isBinaryFile (filename : Str) : Bool :=
  let ext := goToLower (goExt filename)
  binaryExtensions.any (fun b => ext == b) ||
    (goContains filename (str ".git/") ||
     goStarts filename (str ".git") ||
     filename == str "DIRC" ||
     goContains filename (str "index.lock"))

/-- `containsBinaryData(content)` from `repo_indexer.go`: a NUL byte or
a byte above 127 among the first `min(len(content), 1000)` bytes. -/
def containsBinaryData (content : Str) : Bool :=
  (content.take 1000).any (fun c => c.toNat = 0 || c.toNat > 127)

/-- The two content checks `processDirectory` applies to a readable
file before processing it: the 100,000-byte size ceiling and the binary
content sniff. -/
def contentChecksPass (content : Str) : Bool :=
  if content.length > 100000 then false else !containsBinaryData content

/-- C6: classification outcomes.  The three version-control paths are
rejected and `main.go` / `README.md` are accepted by `isBinaryFile`;
any content longer than 100,000 bytes fails the inline size check; any
content whose first up-to-1000 bytes contain a NUL byte or a byte ≥ 128
is flagged by `containsBinaryData`; and a 50,000-byte file whose first
1000 bytes are all ASCII printable passes both content checks. -/
theorem fileClassifier_cases :
    isBinaryFile (str ".git/config") = true ∧
    isBinaryFile (str ".gitignore") = true ∧
    isBinaryFile (str "node_modules/.git/HEAD") = true ∧
    isBinaryFile (str "main.go") = false ∧
    isBinaryFile (str "README.md") = false ∧
    (∀ content : Str, 100000 < content.length → contentChecksPass content = false) ∧
    (∀ content : Str, (∃ c ∈ content.take 1000, c.toNat = 0 ∨ 128 ≤ c.toNat) →
      containsBinaryData content = true) ∧
    (∀ content : Str, content.length = 50000 →
      (∀ c ∈ content.take 1000, 32 ≤ c.toNat ∧ c.toNat ≤ 126) →
      contentChecksPass content = true) := by
  refine ⟨by decide, by decide, by decide, by decide, by decide, ?_, ?_, ?_⟩
  · intro content h
    simp [contentChecksPass, if_pos h]
  · intro content h
    rcases h with ⟨c, hmem, hc⟩
    rw [containsBinaryData, List.any_eq_true]
    refine ⟨c, hmem, ?_⟩
    simp only [Bool.or_eq_true, decide_eq_true_eq]
    omega
  · intro content hlen hascii
    have hsize : ¬(content.length > 100000) := by omega
    rw [contentChecksPass, if_neg hsize, Bool.not_eq_eq_eq_not, Bool.not_true]
    rw [containsBinaryData]
    simp only [List.any_eq_false, Bool.or_eq_false_iff]
    intro c hmem
    have := hascii c hmem
    simp only [Bool.or_eq_true, decide_eq_true_eq]
    omega

theorem fileClassifier_cases_witness :
    (100000 < (List.replicate 100001 'A').length ∧
      contentChecksPass (List.replicate 100001 'A') = false) ∧
    ((∃ c ∈ (['x', Char.ofNat 0] : Str).take 1000, c.toNat = 0 ∨ 128 ≤ c.toNat) ∧
      containsBinaryData ['x', Char.ofNat 0] = true) ∧
    ((List.replicate 50000 'A').length = 50000 ∧
      contentChecksPass (List.replicate 50000 'A') = true) := by
  have hbig : 100000 < (List.replicate 100001 'A').length := by
    rw [List.length_replicate]; omega
  have hfifty : (List.replicate 50000 'A').length = 50000 := by
    rw [List.length_replicate]
  refine ⟨⟨hbig, ?_⟩, ⟨⟨Char.ofNat 0, by decide, by decide⟩, ?_⟩, ⟨hfifty, ?_⟩⟩
  · exact fileClassifier_cases.2.2.2.2.2.1 _ hbig
  · exact fileClassifier_cases.2.2.2.2.2.2.1 _ ⟨Char.ofNat 0, by decide, by decide⟩
  · refine fileClassifier_cases.2.2.2.2.2.2.2 _ hfifty ?_
    intro c hmem
    rw [List.take_replicate] at hmem
    rw [List.eq_of_mem_replicate hmem]
    decide

/-! ## Repository identity derivation

`processFile` in both `RepoIndexer` variants derives the
`"owner/name"` repository string from the source URL. -/

/-- The derivation in `processFile`: split the URL on `"/"`, take the
last two segments as owner and name (Go indexes `parts[len-2]` and
`parts[len-1]`; the out-of-range access that Go would panic on for a
slash-free URL is modelled by an empty default), and strip a trailing
`".git"` from the name. -/
def deriveRepository (repoURL : Str) : Str :=
  let parts := splitOnChar '/' repoURL
  let repoOwner := parts.getD (parts.length - 2) []
  let repoName0 := parts.getD (parts.length - 1) []
  let repoName :=
    if goEnds repoName0 (str ".git") then repoName0.take (repoName0.length - 4) else repoName0
  repoOwner ++ '/' :: repoName

/-- Modelled from the spec: the claim's derivation rule, which splits
the URL on `"/"` and takes the last two NON-EMPTY segments as owner and
name before stripping a trailing `".git"`. -/
def specDeriveRepository (repoURL : Str) : Str :=
  let segs := (splitOnChar '/' repoURL).filter (fun l => !l.isEmpty)
  let repoOwner := segs.getD (segs.length - 2) []
  let repoName0 := segs.getD (segs.length - 1) []
  let repoName :=
    if goEnds repoName0 (str ".git") then repoName0.take (repoName0.length - 4) else repoName0
  repoOwner ++ '/' :: repoName

/-- C7 counterexample: for the URL `"https://github.com/acme/widgets/"`
(trailing slash) the code takes the last two segments verbatim — the
last one being empty — and yields `"widgets/"`, while the claimed
last-two-non-empty-segments rule yields `"acme/widgets"`. -/
theorem deriveRepository_cex :
    deriveRepository (str "https://github.com/acme/widgets/") = str "widgets/" ∧
    specDeriveRepository (str "https://github.com/acme/widgets/") = str "acme/widgets" ∧
    deriveRepository (str "https://github.com/acme/widgets/") ≠
      specDeriveRepository (str "https://github.com/acme/widgets/") := by
  refine ⟨by decide, by decide, by decide⟩

/-- C7, amended: the repository string is obtained by splitting the URL
on `"/"` and taking the last two segments — empty or not — as owner and
name, stripping a trailing `".git"` from the name; in particular
`"https://github.com/acme/widgets.git"` and
`"https://github.com/acme/widgets"` both yield `"acme/widgets"` (the
derivation is a pure function, so a URL always resolves to one
repository string). -/
theorem deriveRepository_amended :
    deriveRepository (str "https://github.com/acme/widgets.git") = str "acme/widgets" ∧
    deriveRepository (str "https://github.com/acme/widgets") = str "acme/widgets" := by
  refine ⟨by decide, by decide⟩

/-! ## CodeChunk and the search-result ranking of `VectorStore.Search` -/

/-- `CodeChunk` from `vector_store.go` / `internal/models`.  The
`float32` embedding vector is modelled as `List Int`: none of the core
logic inspects its values. -/
structure CodeChunk where
  content : Str
  filePath : Str
  repository : Str
  branch : Str
  language : Str
  embedding : List Int
deriving DecidableEq

/-- The fixed `importantFiles` marker list of `VectorStore.Search`
(`vector_store.go`) and `PineconeStore.Search` (`storage`). -/
def importantFiles : List Str :=
  [str "main.go", str "README.md", str "go.mod", str "handlers/",
   str "models/", str "routes/", str "controllers/", str "services/"]

/-- The inner marker loop of `Search`: the chunk is prioritized when its
file path contains any important marker (the Go loop breaks at the first
hit, which is exactly `List.any`). -/
def isImportantB (chunk : CodeChunk) : Bool :=
  importantFiles.any (fun f => goContains chunk.filePath f)

/-- One iteration of the result-parsing loop of `Search`: a `none`
match models a nil match or a match with nil vector/metadata and is
dropped; otherwise the chunk is appended to the prioritized or the
other accumulator. -/
def rankStep (acc : List CodeChunk × List CodeChunk) (m : Option CodeChunk) :
    List CodeChunk × List CodeChunk :=
  match m with
  | none => acc
  | some chunk =>
    if isImportantB chunk then (acc.1 ++ [chunk], acc.2) else (acc.1, acc.2 ++ [chunk])

/-- The ranking applied by `Search` to the vector store's match list:
parse the matches into `(prioritizedResults, otherResults)` and return
their concatenation. -/
def searchRank (ms : List (Option CodeChunk)) : List CodeChunk :=
  let pair := ms.foldl rankStep ([], [])
  pair.1 ++ pair.2

theorem foldl_rankStep (cs : List CodeChunk) :
    ∀ p o : List CodeChunk,
      (cs.map Option.some).foldl rankStep (p, o) =
        (p ++ cs.filter isImportantB, o ++ cs.filter (fun c => !isImportantB c)) := by
  induction cs with
  | nil => intro p o; simp
  | cons c rest ih =>
    intro p o
    by_cases h : isImportantB c
    · simp only [List.map_cons, List.foldl_cons, rankStep, if_pos h]
      rw [ih (p ++ [c]) o]
      simp [List.filter_cons, h]
    · simp only [List.map_cons, List.foldl_cons, rankStep, if_neg h]
      rw [ih p (o ++ [c])]
      simp [List.filter_cons, h]

def exampleChunk (path : String) : CodeChunk :=
  ⟨str "some content", str path, str "acme/widgets", str "main", str "Go", []⟩

/-- C2: for every nil-free, metadata-bearing match list, `Search`
returns the matches whose file path contains an important marker, in
their original relative order, followed by all remaining matches in
their original relative order; on the paths
`[src/foo.txt, main.go, handlers/x.go]` the output order is
`[main.go, handlers/x.go, src/foo.txt]`. -/
theorem search_ranking_partition :
    (∀ ms : List CodeChunk,
      searchRank (ms.map Option.some) =
        ms.filter isImportantB ++ ms.filter (fun c => !isImportantB c)) ∧
    (searchRank [some (exampleChunk "src/foo.txt"), some (exampleChunk "main.go"),
        some (exampleChunk "handlers/x.go")]).map CodeChunk.filePath =
      [str "main.go", str "handlers/x.go", str "src/foo.txt"] := by
  constructor
  · intro ms
    rw [searchRank, foldl_rankStep ms [] []]
    simp
  · decide

/-! ## Second-tier summary filter of `VectorSearcher.Search`
(`tools/tools/repo_indexer.go`, search part) -/

/-- `strings.TrimSpace`, modelled with the ASCII whitespace class
(space, tab, newline, carriage return) — the only whitespace that can
survive the pipeline's binary sniff. -/
def trimSpace (s : Str) : Str :=
  ((s.dropWhile Char.isWhitespace).reverse.dropWhile Char.isWhitespace).reverse

/-- The per-result predicate of the second-tier filter in
`VectorSearcher.Search`: version-control or temporary paths are
dropped, as is any result whose trimmed content is shorter than 10
characters. -/
def summaryKeep (result : CodeChunk) : Bool :=
  !(goContains result.filePath (str ".git/") ||
    goStarts result.filePath (str ".git") ||
    goContains result.filePath (str "var/folders")) &&
  !((trimSpace result.content).length < 10)

/-- The chunk list `VectorSearcher.Search` hands to `generateSummary`:
the filtered results, truncated to the first 3 when more survive. -/
def topResults (results : List CodeChunk) : List CodeChunk :=
  let filteredResults := results.filter summaryKeep
  if filteredResults.length > 3 then filteredResults.take 3 else filteredResults

/-- C9: for every search-result list, the chunks forwarded to the
summary generator are exactly the first three survivors (in relevance
order) of the second-tier filter, and there are never more than 3. -/
theorem summary_input_bounded :
    ∀ results : List CodeChunk,
      topResults results = (results.filter summaryKeep).take 3 ∧
      (topResults results).length ≤ 3 := by
  intro results
  rw [topResults]
  by_cases h : (results.filter summaryKeep).length > 3
  · rw [if_pos h]
    refine ⟨rfl, ?_⟩
    rw [List.length_take]
    omega
  · rw [if_neg h]
    have hle : (results.filter summaryKeep).length ≤ 3 := by omega
    exact ⟨(List.take_of_length_le hle).symm, hle⟩

/-! ## The Pinecone store request of `VectorStore.Store` -/

/-- The vector identifier built by `Store`:
`fmt.Sprintf("%s-%s", chunk.Repository, chunk.FilePath)` truncated to
100 bytes when longer. -/
def vectorIdOf (chunk : CodeChunk) : Str :=
  let vectorId := chunk.repository ++ '-' :: chunk.filePath
  if vectorId.length > 100 then vectorId.take 100 else vectorId

/-- The single `pinecone.Vector` upserted by `Store`. -/
structure PVector where
  id : Str
  values : List Int
  metadata : List (Str × Str)
deriving DecidableEq

/-- The upsert payload `Store` builds from a chunk. -/
def storeRequest (chunk : CodeChunk) : PVector :=
  { id := vectorIdOf chunk,
    values := chunk.embedding,
    metadata :=
      [(str "content", chunk.content), (str "filePath", chunk.filePath),
       (str "repository", chunk.repository), (str "branch", chunk.branch),
       (str "language", chunk.language)] }

/-- `VectorStore.Store` with its two vendor calls (index connection and
upsert) as explicit parameters. -/
def Store (getIndex : Except Str Unit) (upsert : PVector → Except Str Unit)
    (chunk : CodeChunk) : Except Str Unit :=
  match getIndex with
  | .error e => .error (str "failed to get index: " ++ e)
  | .ok _ =>
    match upsert (storeRequest chunk) with
    | .error e => .error (str "failed to store chunk: " ++ e)
    | .ok _ => .ok ()

/-- `MockVectorStore.Store` from `tools/tools/mocks_test.go`: the test
double that implements the intended contract, rejecting empty content. -/
def mockStore (mockErr : Option Str) (chunk : CodeChunk) : Except Str Unit :=
  match mockErr with
  | some e => .error e
  | none => if chunk.content = [] then .error (str "empty content") else .ok ()

def emptyContentChunk : CodeChunk :=
  ⟨[], str "test/path.go", str "test/repo", str "main", str "Go", [1, 2, 3]⟩

/-- C8: the real `VectorStore.Store` performs no empty-content
validation — on a chunk with empty content and succeeding vendor calls
it returns success — whereas the repository's own mock (exercised by
`TestVectorStore_Store`, which expects an error for empty content)
rejects it. -/
theorem store_empty_content_divergence :
    Store (.ok ()) (fun _ => .ok ()) emptyContentChunk = .ok () ∧
    mockStore none emptyContentChunk = .error (str "empty content") := by
  refine ⟨rfl, rfl⟩

/-- C10: the vector ID under which `Store` upserts a chunk is the
repository, a `"-"`, and the file path, truncated to at most 100
characters; it never depends on the chunk's content, branch, embedding
or position, so two chunks of the same file of the same repository are
upserted under the identical vector ID. -/
theorem vectorId_depends_only_on_repo_and_path :
    (∀ chunk : CodeChunk,
      (storeRequest chunk).id = (chunk.repository ++ '-' :: chunk.filePath).take 100) ∧
    (∀ chunk : CodeChunk, (storeRequest chunk).id.length ≤ 100) ∧
    (∀ c1 c2 : CodeChunk, c1.repository = c2.repository → c1.filePath = c2.filePath →
      (storeRequest c1).id = (storeRequest c2).id) := by
  have hid : ∀ chunk : CodeChunk,
      (storeRequest chunk).id = (chunk.repository ++ '-' :: chunk.filePath).take 100 := by
    intro chunk
    rw [storeRequest]
    simp only [vectorIdOf]
    by_cases h : (chunk.repository ++ '-' :: chunk.filePath).length > 100
    · rw [if_pos h]
    · rw [if_neg h]
      exact (List.take_of_length_le (by omega)).symm
  refine ⟨hid, ?_, ?_⟩
  · intro chunk
    rw [hid chunk, List.length_take]
    omega
  · intro c1 c2 h1 h2
    rw [hid c1, hid c2, h1, h2]

theorem vectorId_depends_only_on_repo_and_path_witness :
    (str "acme/widgets" = str "acme/widgets" ∧ str "main.go" = str "main.go") ∧
    (storeRequest ⟨str "chunk one", str "main.go", str "acme/widgets", str "main",
        str "Go", [1]⟩).id =
      (storeRequest ⟨str "chunk two", str "main.go", str "acme/widgets", str "dev",
        str "Go", [2]⟩).id :=
  ⟨⟨rfl, rfl⟩,
    vectorId_depends_only_on_repo_and_path.2.2
      ⟨str "chunk one", str "main.go", str "acme/widgets", str "main", str "Go", [1]⟩
      ⟨str "chunk two", str "main.go", str "acme/widgets", str "dev", str "Go", [2]⟩
      rfl rfl⟩

/-! ## The repository walker (`RepoIndexer.processDirectory` /
`processFile`)

The file tree produced by the clone is modelled as a rose tree whose
directories carry an optional access error (a failing
`readDirNames`, the "unreadable root" case) and whose files carry the
result of `ioutil.ReadFile`.  `filepath.Walk` is embedded with its
`SkipDir` protocol.  The two vendor ports (embedding and vector
storage) are explicit function parameters.  The `fmt.Printf` logging
and the byte slicing that computes the printed relative path are not
observable and are omitted. -/

/-- `strings.Index(s, sub)` from the Go standard library: the first
byte index at which `sub` occurs in `s`, `-1` if it does not. -/
def goIndexOf (s sub : Str) : Int :=
  match (List.range (s.length + 1)).filter (fun i => sub.isPrefixOf (s.drop i)) with
  | [] => -1
  | i :: _ => (i : Int)

/-- `strings.LastIndex(s, sub)` from the Go standard library: the last
byte index at which `sub` occurs in `s`, `-1` if it does not. -/
def goLastIndex (s sub : Str) : Int :=
  match ((List.range (s.length + 1)).filter
      (fun i => sub.isPrefixOf (s.drop i))).getLast? with
  | none => -1
  | some i => (i : Int)

/-- The relative-path extraction of `processFile`: look for the last
occurrence of the temp-directory marker `"/repo-"`, then cut everything
up to and including the next `"/"` after it. -/
def extractRelPath (filePath : Str) : Str :=
  let idx := goLastIndex filePath (str "/repo-")
  if idx = -1 then filePath
  else
    let nextSlash := goIndexOf (filePath.drop (idx.toNat + 1)) (str "/")
    if nextSlash = -1 then filePath
    else filePath.drop (idx.toNat + nextSlash.toNat + 2)

/-- `getLanguageFromExtension` from `repo_indexer.go`. -/
def getLanguageFromExtension (ext : Str) : Str :=
  let e := goToLower ext
  if e == str ".go" then str "Go"
  else if e == str ".js" || e == str ".jsx" then str "JavaScript"
  else if e == str ".ts" || e == str ".tsx" then str "TypeScript"
  else if e == str ".py" then str "Python"
  else if e == str ".java" then str "Java"
  else if e == str ".c" || e == str ".cpp" || e == str ".h" || e == str ".hpp" then str "C/C++"
  else if e == str ".rb" then str "Ruby"
  else if e == str ".php" then str "PHP"
  else if e == str ".cs" then str "C#"
  else if e == str ".html" then str "HTML"
  else if e == str ".css" then str "CSS"
  else str "Unknown"

/-- The embedding port: `RepoIndexer.getEmbeddings` as seen by
`processFile` (vendor call, explicit parameter). -/
abbrev EmbedFn := Str → Except Str (List Int)

/-- The vector-store port: `vectorStore.Store` as seen by
`processFile` (vendor call, explicit parameter). -/
abbrev StoreFn := CodeChunk → Except Str Unit

/-- The per-chunk loop of `processFile`: embed each chunk and store the
resulting `CodeChunk`; the first embedding or store failure aborts the
file with a wrapped error. -/
def processChunks (embed : EmbedFn) (store : StoreFn)
    (relPath repository branch language : Str) : List Str → Except Str Unit
  | [] => .ok ()
  | chunk :: rest =>
    match embed chunk with
    | .error e => .error (str "failed to get embedding: " ++ e)
    | .ok emb =>
      match store ⟨chunk, relPath, repository, branch, language, emb⟩ with
      | .error e => .error (str "failed to store chunk: " ++ e)
      | .ok _ => processChunks embed store relPath repository branch language rest

/-- `RepoIndexer.processFile` (github-mcpserver variant, which also
re-checks the content for binary data before chunking). -/
def processFile (embed : EmbedFn) (store : StoreFn)
    (content filePath repoURL branch : Str) : Except Str Unit :=
  if containsBinaryData content then .error (str "cannot process binary file")
  else
    let repository := deriveRepository repoURL
    let relPath := extractRelPath filePath
    let language := getLanguageFromExtension (goExt filePath)
    let chunks := splitIntoChunks content 1000
    processChunks embed store relPath repository branch language chunks

mutual
inductive FSEntry where
  | file (name : Str) (content : Except Str Str)
  | dir (name : Str) (access : Option Str) (children : FSList)
inductive FSList where
  | fnil
  | fcons (head : FSEntry) (tail : FSList)
end

def entryName : FSEntry → Str
  | .file n _ => n
  | .dir n _ _ => n

def entryIsDir : FSEntry → Bool
  | .file _ _ => false
  | .dir _ _ _ => true

/-- The value a `filepath.WalkFunc` returns: `nil`, the sentinel
`filepath.SkipDir`, or a real error. -/
inductive WRes where
  | ok
  | skipDir
  | fail (e : Str)

/-- The observable state of one `processDirectory` run: the three
counters and the full paths of the files processed successfully, in
walk order. -/
structure WState where
  fileCount : Nat
  skippedCount : Nat
  processedCount : Nat
  processed : List Str

def initState : WState := ⟨0, 0, 0, []⟩

/-- The walk callback of `processDirectory` applied to a file entry
(`err == nil`, `info.IsDir() == false`). -/
def walkFnFile (embed : EmbedFn) (store : StoreFn) (repoURL branch : Str)
    (path name : Str) (content : Except Str Str) (st : WState) : WState × WRes :=
  let st := { st with fileCount := st.fileCount + 1 }
  if goStarts name (str ".") then
    ({ st with skippedCount := st.skippedCount + 1 }, .ok)
  else if isBinaryFile path then
    ({ st with skippedCount := st.skippedCount + 1 }, .ok)
  else
    match content with
    | .error _ => ({ st with skippedCount := st.skippedCount + 1 }, .ok)
    | .ok data =>
      if data.length > 100000 then
        ({ st with skippedCount := st.skippedCount + 1 }, .ok)
      else if containsBinaryData data then
        ({ st with skippedCount := st.skippedCount + 1 }, .ok)
      else
        match processFile embed store data path repoURL branch with
        | .error _ => ({ st with skippedCount := st.skippedCount + 1 }, .ok)
        | .ok _ =>
          ({ st with
              processedCount := st.processedCount + 1
              processed := st.processed ++ [path] }, .ok)

/-- The walk callback of `processDirectory` applied to a directory
entry.  When `readDirNames` failed, `filepath.Walk` passes that error
to the callback, which returns it (`if err != nil { return err }`),
before any counter is touched. -/
def walkFnDir (path name : Str) (access : Option Str) (st : WState) : WState × WRes :=
  match access with
  | some e => (st, .fail e)
  | none =>
    let st := { st with fileCount := st.fileCount + 1 }
    if goStarts name (str ".") then
      if goContains path (str ".git") then
        ({ st with skippedCount := st.skippedCount + 1 }, .skipDir)
      else
        ({ st with skippedCount := st.skippedCount + 1 }, .ok)
    else (st, .ok)

mutual
/-- The recursion `walk` of `path/filepath`, specialised to the
callback of `processDirectory`. -/
def walkEntry (embed : EmbedFn) (store : StoreFn) (repoURL branch : Str)
    (path : Str) (e : FSEntry) (st : WState) : WState × WRes :=
  match e with
  | .file name content => walkFnFile embed store repoURL branch path name content st
  | .dir name access children =>
    match walkFnDir path name access st with
    | (st1, .ok) => walkList embed store repoURL branch path children st1
    | (st1, r) => (st1, r)
/-- The loop of `walk` over the entries of a readable directory: a
`SkipDir` returned for a directory child skips only that child, while
any other error aborts the walk. -/
def walkList (embed : EmbedFn) (store : StoreFn) (repoURL branch : Str)
    (dirPath : Str) (l : FSList) (st : WState) : WState × WRes :=
  match l with
  | .fnil => (st, .ok)
  | .fcons c rest =>
    match walkEntry embed store repoURL branch (dirPath ++ '/' :: entryName c) c st with
    | (st1, .fail e) => (st1, .fail e)
    | (st1, .skipDir) =>
      if entryIsDir c then walkList embed store repoURL branch dirPath rest st1
      else (st1, .skipDir)
    | (st1, .ok) => walkList embed store repoURL branch dirPath rest st1
end

/-- `RepoIndexer.processDirectory`: run the walk from the root and
return the final counters together with the error `filepath.Walk`
reports (`SkipDir` is translated back to success). -/
def processDirectory (embed : EmbedFn) (store : StoreFn)
    (dir repoURL branch : Str) (root : FSEntry) : WState × Option Str :=
  match walkEntry embed store repoURL branch dir root initState with
  | (st, .fail e) => (st, some e)
  | (st, _) => (st, none)

mutual
/-- No access error anywhere in the tree: every directory's
`readDirNames` succeeds.  File read errors are still allowed. -/
def entryOk : FSEntry → Bool
  | .file _ _ => true
  | .dir _ access children => access.isNone && listOk children
def listOk : FSList → Bool
  | .fnil => true
  | .fcons e rest => entryOk e && listOk rest
end

/-- Modelled from the spec: whether one file, considered on its own,
survives every per-file check and is processed successfully — not
hidden, not denylisted, readable, within the size ceiling, not binary,
and all its chunks embedded and stored without error. -/
def fileProcessedB (embed : EmbedFn) (store : StoreFn) (repoURL branch : Str)
    (path name : Str) (content : Except Str Str) : Bool :=
  !goStarts name (str ".") && !isBinaryFile path &&
    (match content with
     | .error _ => false
     | .ok data =>
       !(data.length > 100000) && !containsBinaryData data &&
         (match processFile embed store data path repoURL branch with
          | .error _ => false
          | .ok _ => true))

mutual
/-- Modelled from the spec: the files the walk is expected to process —
every file in the tree, in walk order, outside pruned version-control
subtrees, that passes its own checks.  Whether a file appears here
depends only on that file, never on the failures of its siblings. -/
def specFiles (embed : EmbedFn) (store : StoreFn) (repoURL branch : Str)
    (path : Str) : FSEntry → List Str
  | .file name content =>
    if fileProcessedB embed store repoURL branch path name content then [path] else []
  | .dir name _ children =>
    if goStarts name (str ".") && goContains path (str ".git") then []
    else specFilesList embed store repoURL branch path children
def specFilesList (embed : EmbedFn) (store : StoreFn) (repoURL branch : Str)
    (dirPath : Str) : FSList → List Str
  | .fnil => []
  | .fcons c rest =>
    specFiles embed store repoURL branch (dirPath ++ '/' :: entryName c) c ++
      specFilesList embed store repoURL branch dirPath rest
end

/-- The file callback never aborts the walk: whatever fails for one
file (read, classification, chunk embedding or storage), the callback
returns `nil`, and the file is recorded as processed exactly when it
passes every one of its own checks. -/
theorem walkFnFile_spec (embed : EmbedFn) (store : StoreFn) (repoURL branch : Str)
    (path name : Str) (content : Except Str Str) (st : WState) :
    (walkFnFile embed store repoURL branch path name content st).2 = .ok ∧
    (walkFnFile embed store repoURL branch path name content st).1.processed =
      st.processed ++
        (if fileProcessedB embed store repoURL branch path name content
         then [path] else []) := by
  unfold walkFnFile fileProcessedB
  by_cases h1 : goStarts name (str ".") = true
  · simp [h1]
  · by_cases h2 : isBinaryFile path = true
    · simp [h1, h2]
    · cases content with
      | error e => simp [h1, h2]
      | ok data =>
        by_cases h3 : data.length > 100000
        · simp [h1, h2, h3]
        · by_cases h4 : containsBinaryData data = true
          · simp [h1, h2, h3, h4]
          · cases hp : processFile embed store data path repoURL branch with
            | error e => simp [h1, h2, h3, h4, hp]
            | ok u => simp [h1, h2, h3, h4, hp]

/-- The per-entry induction statement: under a tree with no access
errors, the walk starting at this entry never fails, returns `SkipDir`
only for a (pruned) directory, and appends to the processed list
exactly the files that pass their own checks. -/
def entryP (embed : EmbedFn) (store : StoreFn) (repoURL branch : Str)
    (e : FSEntry) : Prop :=
  ∀ path st, entryOk e = true →
    (walkEntry embed store repoURL branch path e st).1.processed =
      st.processed ++ specFiles embed store repoURL branch path e ∧
    ((walkEntry embed store repoURL branch path e st).2 = .ok ∨
      ((walkEntry embed store repoURL branch path e st).2 = .skipDir ∧
        entryIsDir e = true))

/-- The per-directory-listing induction statement. -/
def listP (embed : EmbedFn) (store : StoreFn) (repoURL branch : Str)
    (l : FSList) : Prop :=
  ∀ dirPath st, listOk l = true →
    (walkList embed store repoURL branch dirPath l st).1.processed =
      st.processed ++ specFilesList embed store repoURL branch dirPath l ∧
    (walkList embed store repoURL branch dirPath l st).2 = .ok

theorem hEntryFile (embed : EmbedFn) (store : StoreFn) (repoURL branch : Str)
    (name : Str) (content : Except Str Str) :
    entryP embed store repoURL branch (.file name content) := by
  intro path st _
  have h := walkFnFile_spec embed store repoURL branch path name content st
  refine ⟨?_, Or.inl ?_⟩
  · rw [walkEntry, specFiles, h.2]
  · rw [walkEntry]
    exact h.1

theorem hEntryDir (embed : EmbedFn) (store : StoreFn) (repoURL branch : Str)
    (name : Str) (access : Option Str) (children : FSList)
    (ih : listP embed store repoURL branch children) :
    entryP embed store repoURL branch (.dir name access children) := by
  intro path st hok
  rw [entryOk] at hok
  simp only [Bool.and_eq_true, Option.isNone_iff_eq_none] at hok
  obtain ⟨haccess, hlist⟩ := hok
  subst haccess
  rw [walkEntry]
  simp only [walkFnDir]
  by_cases h1 : goStarts name (str ".") = true
  · by_cases h2 : goContains path (str ".git") = true
    · rw [if_pos h1, if_pos h2]
      dsimp only
      refine ⟨?_, Or.inr ⟨rfl, rfl⟩⟩
      rw [specFiles, if_pos (by simp [h1, h2])]
      simp
    · rw [if_pos h1, if_neg h2]
      dsimp only
      have h := ih path
        { st with fileCount := st.fileCount + 1, skippedCount := st.skippedCount + 1 } hlist
      refine ⟨?_, Or.inl h.2⟩
      rw [h.1, specFiles, if_neg (by simp [h2])]
  · rw [if_neg h1]
    dsimp only
    have h := ih path { st with fileCount := st.fileCount + 1 } hlist
    refine ⟨?_, Or.inl h.2⟩
    rw [h.1, specFiles, if_neg (by simp [h1])]

theorem hListNil (embed : EmbedFn) (store : StoreFn) (repoURL branch : Str) :
    listP embed store repoURL branch .fnil := by
  intro dirPath st _
  rw [walkList, specFilesList]
  simp

theorem hListCons (embed : EmbedFn) (store : StoreFn) (repoURL branch : Str)
    (c : FSEntry) (rest : FSList)
    (ihc : entryP embed store repoURL branch c)
    (ihr : listP embed store repoURL branch rest) :
    listP embed store repoURL branch (.fcons c rest) := by
  intro dirPath st hok
  rw [listOk] at hok
  simp only [Bool.and_eq_true] at hok
  obtain ⟨hc, hrest⟩ := hok
  have hchild := ihc (dirPath ++ '/' :: entryName c) st hc
  rw [walkList, specFilesList]
  rcases hw : walkEntry embed store repoURL branch (dirPath ++ '/' :: entryName c) c st
    with ⟨st1, r⟩
  rw [hw] at hchild
  rcases hchild with ⟨hproc, hres | hres⟩
  · dsimp only at hres hproc
    subst hres
    dsimp only
    have htail := ihr dirPath st1 hrest
    refine ⟨?_, htail.2⟩
    rw [htail.1, hproc, List.append_assoc]
  · obtain ⟨hr, hdir⟩ := hres
    dsimp only at hr hproc
    subst hr
    dsimp only
    rw [if_pos hdir]
    have htail := ihr dirPath st1 hrest
    refine ⟨?_, htail.2⟩
    rw [htail.1, hproc, List.append_assoc]

theorem walkEntry_noAccess (embed : EmbedFn) (store : StoreFn) (repoURL branch : Str) :
    ∀ e : FSEntry, entryP embed store repoURL branch e := fun e =>
  @FSEntry.rec (entryP embed store repoURL branch) (listP embed store repoURL branch)
    (hEntryFile embed store repoURL branch)
    (hEntryDir embed store repoURL branch)
    (hListNil embed store repoURL branch)
    (hListCons embed store repoURL branch) e

/-- C3: failure policy of the walk.  (1) On any tree whose directories
are all readable, `processDirectory` reports no error — per-file read
failures, classification skips and per-chunk embedding/storage failures
only exclude the affected file — and the processed files are exactly
those that pass their own checks, independent of any other file's
failure.  (2) A failure of the tree walk itself — an unreadable root
directory — is fatal: it is propagated to the caller of
`processDirectory` and nothing is processed. -/
theorem processDirectory_failure_policy :
    (∀ (embed : EmbedFn) (store : StoreFn) (dir repoURL branch : Str) (root : FSEntry),
      entryOk root = true →
        (processDirectory embed store dir repoURL branch root).2 = none ∧
        (processDirectory embed store dir repoURL branch root).1.processed =
          specFiles embed store repoURL branch dir root) ∧
    (∀ (embed : EmbedFn) (store : StoreFn) (dir repoURL branch name : Str)
        (e : Str) (children : FSList),
      processDirectory embed store dir repoURL branch (.dir name (some e) children) =
        (initState, some e)) := by
  constructor
  · intro embed store dir repoURL branch root hok
    have h := walkEntry_noAccess embed store repoURL branch root dir initState hok
    unfold processDirectory
    rcases hw : walkEntry embed store repoURL branch dir root initState with ⟨st, r⟩
    rw [hw] at h
    rcases h with ⟨hproc, hres | hres⟩
    · dsimp only at hres hproc
      subst hres
      dsimp only
      refine ⟨rfl, ?_⟩
      simpa [initState] using hproc
    · obtain ⟨hr, _⟩ := hres
      dsimp only at hr hproc
      subst hr
      dsimp only
      refine ⟨rfl, ?_⟩
      simpa [initState] using hproc
  · intro embed store dir repoURL branch name e children
    rfl

theorem processDirectory_failure_policy_witness :
    entryOk (.file (str "main.go") (.ok (str "package main"))) = true ∧
    ((processDirectory (fun _ => .ok []) (fun _ => .ok ()) (str "/tmp/repo-x")
        (str "https://github.com/acme/widgets") (str "main")
        (.file (str "main.go") (.ok (str "package main")))).2 = none ∧
      (processDirectory (fun _ => .ok []) (fun _ => .ok ()) (str "/tmp/repo-x")
        (str "https://github.com/acme/widgets") (str "main")
        (.file (str "main.go") (.ok (str "package main")))).1.processed =
        specFiles (fun _ => .ok []) (fun _ => .ok ())
          (str "https://github.com/acme/widgets") (str "main") (str "/tmp/repo-x")
          (.file (str "main.go") (.ok (str "package main")))) :=
  ⟨rfl, processDirectory_failure_policy.1 (fun _ => .ok []) (fun _ => .ok ())
    (str "/tmp/repo-x") (str "https://github.com/acme/widgets") (str "main")
    (.file (str "main.go") (.ok (str "package main"))) rfl⟩

end VecSearch
